import Mathlib

/-
Verification of the filecabinet core (src/utils.rs and the archive-store
contract) against its specification.  The Rust functions are shallowly
embedded: a Rust `&str` becomes a list of characters, a `Path` with a final
normal component becomes a parent-component list plus a file name, and the
directory scan takes the directory's children as an explicit value
(`none` when the directory does not exist).
-/

/-- Characters of a Rust string slice. -/
abbrev Str := List Char

/-- View a Lean string literal as the character-list representation. -/
def str (s : String) : Str := s.toList

/-- Rust `char::to_ascii_lowercase`: maps 'A'..'Z' to 'a'..'z', leaves every
other character (including non-ASCII) unchanged. -/
def asciiLower (c : Char) : Char :=
  if 'A' ≤ c ∧ c ≤ 'Z' then Char.ofNat (c.toNat + 32) else c

/-- Rust `str::to_ascii_lowercase` on a slice. -/
def lowerStr (s : Str) : Str := s.map asciiLower

/-- Split a character list at its last '.' : `some (before, after)` when a
dot exists, `none` otherwise.  Helper for the file-stem/extension split. -/
def splitLastDot : Str → Option (Str × Str)
  | [] => none
  | c :: cs =>
    match splitLastDot cs with
    | some (b, a) => some (c :: b, a)
    | none => if c = '.' then some ([], cs) else none

/-- Rust `std::path`'s split of a file name into stem and extension: the name
`..` has no extension; otherwise the name is split at the last '.' that is
not at position 0; if there is no such dot the whole name is the stem. -/
def splitFileAtDot (file : Str) : Str × Option Str :=
  if file = str ".." then (file, none)
  else
    match splitLastDot file with
    | some (b, a) => if b = [] then (file, none) else (b, some a)
    | none => (file, none)

/-- `Path::file_stem` of a file name. -/
def file_stem (file : Str) : Str := (splitFileAtDot file).1

/-- `Path::extension` of a file name. -/
def extensionOf (file : Str) : Option Str := (splitFileAtDot file).2

/-- utils.rs `extension`: lower-cased extension, empty when absent. -/
def extension (file : Str) : Str := lowerStr ((splitFileAtDot file).2.getD [])

/-- Rust `str::split(sep)`: splits on every occurrence of `sep`, keeping
empty pieces (so splitting the empty string yields one empty piece). -/
def splitOnChar (sep : Char) : Str → List Str
  | [] => [[]]
  | c :: cs =>
    match splitOnChar sep cs with
    | h :: t => if c = sep then [] :: h :: t else (c :: h) :: t
    | [] => [[]]

/-- First maximal run of ASCII digits in a character list, if any.  Embeds
the capture of utils.rs `RE_PARSE_PAGE` = `(\d+)`. -/
def firstDigitRun : Str → Option Str
  | [] => none
  | c :: cs => if c.isDigit then some (c :: cs.takeWhile Char.isDigit) else firstDigitRun cs

/-- utils.rs `parse_page`: first capture of `(\d+)` in the token, `None`
when the token contains no digit. -/
def parse_page (text : Str) : Option Str := firstDigitRun text

/-- utils.rs `RE_WITH_HYPHENS` = `^(\d{4})-(\d{2})-(\d{2})` applied as in
`parse_date`: on a prefix match, the formatted "year-month-day" string. -/
def matchHyphens : Str → Option Str
  | y1 :: y2 :: y3 :: y4 :: h1 :: m1 :: m2 :: h2 :: d1 :: d2 :: _ =>
    if y1.isDigit ∧ y2.isDigit ∧ y3.isDigit ∧ y4.isDigit ∧ h1 = '-' ∧
       m1.isDigit ∧ m2.isDigit ∧ h2 = '-' ∧ d1.isDigit ∧ d2.isDigit
    then some [y1, y2, y3, y4, '-', m1, m2, '-', d1, d2]
    else none
  | _ => none

/-- utils.rs `RE_NO_HYPHENS` = `^(\d{4})(\d{2})(\d{2})` applied as in
`parse_date`: on a prefix match, the formatted "year-month-day" string. -/
def matchNoHyphens : Str → Option Str
  | y1 :: y2 :: y3 :: y4 :: m1 :: m2 :: d1 :: d2 :: _ =>
    if y1.isDigit ∧ y2.isDigit ∧ y3.isDigit ∧ y4.isDigit ∧
       m1.isDigit ∧ m2.isDigit ∧ d1.isDigit ∧ d2.isDigit
    then some [y1, y2, y3, y4, '-', m1, m2, '-', d1, d2]
    else none
  | _ => none

/-- utils.rs `RE_YEAR_ONLY` = `^(\d{4})` applied as in `parse_date`: on a
prefix match, the year with month and day defaulted to "01". -/
def matchYearOnly : Str → Option Str
  | y1 :: y2 :: y3 :: y4 :: _ =>
    if y1.isDigit ∧ y2.isDigit ∧ y3.isDigit ∧ y4.isDigit
    then some [y1, y2, y3, y4, '-', '0', '1', '-', '0', '1']
    else none
  | _ => none

/-- utils.rs `parse_date`: tries the hyphenated pattern, then the compact
pattern, then the year-only pattern, keeping the first match (the `.or`
chain of the source). -/
def parse_date (text : Str) : Option Str :=
  match matchHyphens text with
  | some d => some d
  | none =>
    match matchNoHyphens text with
    | some d => some d
    | none => matchYearOnly text

/-- utils.rs `OptDoc`: a document identity with fields that were maybe
parseable. -/
structure OptDoc where
  date : Option Str
  institution : Option Str
  name : Option Str
  page : Option Str
deriving DecidableEq, Repr

/-- A filesystem path with a final normal component: the parent directory's
components plus the file name.  This covers every path utils.rs handles in
the claims; such a path always has a parent (possibly empty, as in Rust
where `Path::new("a.pdf").parent()` is `Some("")`). -/
structure FPath where
  dir : List Str
  file : Str
deriving DecidableEq, Repr

/-- utils.rs `OptDoc::new`: split the file stem on '_' and parse the four
positional fields independently. -/
def OptDoc.new (p : FPath) : OptDoc :=
  let filestem := file_stem p.file
  let v := splitOnChar '_' filestem
  { date := (v[0]?).bind parse_date
    institution := v[1]?
    name := v[2]?
    page := (v[3]?).bind parse_page }

/-- utils.rs `OptDoc::is_parseable`: all four fields present. -/
def OptDoc.is_parseable (d : OptDoc) : Bool :=
  d.date.isSome && d.institution.isSome && d.name.isSome && d.page.isSome

/-- The canonical-name format string `"{}_{}_{}_{}.{}"` of utils.rs
`is_normalized`. -/
def formatName (date institution name page ext : Str) : Str :=
  date ++ '_' :: (institution ++ '_' :: (name ++ '_' :: (page ++ '.' :: ext)))

/-- Modelled from the spec: `render` (§4.1) is not a standalone function in
src/ (only the format string inside `is_normalized` realises it); following
the spec it requires date, institution and name, defaults the page to "1",
and lower-cases the extension as given. -/
def render (doc : OptDoc) (ext : Str) : Option Str :=
  match doc.date, doc.institution, doc.name with
  | some d, some i, some n =>
    some (formatName d i n (doc.page.getD (str "1")) (lowerStr ext))
  | _, _, _ => none

/-- utils.rs `is_normalized`: lower-case the extension, parse the stem; if
the identity is not fully parseable return false; otherwise rebuild the
canonical name next to the same parent and compare with the source path. -/
def is_normalized (source : FPath) : Bool :=
  let ext := lowerStr ((splitFileAtDot source.file).2.getD [])
  let doc := OptDoc.new source
  if !doc.is_parseable then false
  else
    let target : FPath :=
      ⟨source.dir,
        formatName (doc.date.getD []) (doc.institution.getD []) (doc.name.getD [])
          (doc.page.getD (str "1")) ext⟩
    source == target

/-- A directory child as seen by utils.rs `list_files`: its file name and
whether it is a regular file. -/
structure DirEntry where
  name : Str
  isFile : Bool
deriving DecidableEq, Repr

/-- The allow-list closure of utils.rs `list_files`: lower-cased extension
(empty when absent) compared against pdf, jpg, png and cocoon. -/
def extAllowed (e : DirEntry) : Bool :=
  let ext := lowerStr ((splitFileAtDot e.name).2.getD [])
  ext == str "pdf" || ext == str "jpg" || ext == str "png" || ext == str "cocoon"

/-- utils.rs `list_files`: `none` models a path that does not exist (the
`!path.exists()` early return); otherwise keep the regular files whose
lower-cased extension is in the allow-list and return their names in
enumeration order. -/
def list_files (dir : Option (List DirEntry)) : List Str :=
  match dir with
  | none => []
  | some entries =>
    ((entries.filter (fun e => e.isFile)).filter extAllowed).map (fun e => e.name)

/-- Modelled from the spec: the Archive Store (§4.4) is absent from src/
(the sources only reference its `.cocoon` extension in the scanner).  A
sealed container carries the key it was sealed under together with the
plaintext payload; a `corrupted` container fails authentication under
every key, as an opaque authenticated-encryption primitive guarantees. -/
inductive ArchiveBlob where
  | sealed (key : Str) (payload : List Nat) : ArchiveBlob
  | corrupted : ArchiveBlob
deriving DecidableEq, Repr

/-- Modelled from the spec: the error taxonomy of §7 for the Archive Store
(`AuthError` distinct from the I/O failures). -/
inductive ArchiveError where
  | AuthError : ArchiveError
  | SourceReadError : ArchiveError
  | TargetWriteError : ArchiveError
deriving DecidableEq, Repr

/-- Modelled from the spec: `seal(key, plaintext) -> ciphertext_blob` (§2),
the black-box sealing half of the authenticated-encryption contract. -/
def sealBlob (key : Str) (plain : List Nat) : ArchiveBlob := ArchiveBlob.sealed key plain

/-- Modelled from the spec: `open(key, ciphertext_blob) -> plaintext | AuthError`
(§2): unsealing returns the exact plaintext under the sealing key and fails
with `AuthError` under any other key or on a corrupted container. -/
def openBlob (key : Str) (b : ArchiveBlob) : Except ArchiveError (List Nat) :=
  match b with
  | ArchiveBlob.sealed k p => if k = key then Except.ok p else Except.error ArchiveError.AuthError
  | ArchiveBlob.corrupted => Except.error ArchiveError.AuthError

/-- Modelled from the spec: `ingest` (§4.4), reduced to the byte-level
contract claim C3 is about: read the source bytes (`none` models an
unreadable source) and seal them under the configured key. -/
def ingest (sourceBytes : Option (List Nat)) (key : Str) : Except ArchiveError ArchiveBlob :=
  match sourceBytes with
  | none => Except.error ArchiveError.SourceReadError
  | some bs => Except.ok (sealBlob key bs)

/-- Modelled from the spec: `extract(archive_path, key)` (§4.4): a missing
container is an I/O failure (`SourceReadError`), while unsealing an existing
container distinguishes a wrong key or corruption as `AuthError`. -/
def extract (blob : Option ArchiveBlob) (key : Str) : Except ArchiveError (List Nat) :=
  match blob with
  | none => Except.error ArchiveError.SourceReadError
  | some b => openBlob key b

/-! ### Helper lemmas about the embedded primitives -/

theorem toNat_ofNat_valid (n : Nat) (h : n < 0xd800) : (Char.ofNat n).toNat = n := by
  unfold Char.ofNat
  rw [dif_pos (Or.inl h)]
  rfl

theorem char_le_iff_toNat {a b : Char} : a ≤ b ↔ a.toNat ≤ b.toNat := by rfl

theorem asciiLower_toNat_of_upper {c : Char} (h1 : 'A' ≤ c) (h2 : c ≤ 'Z') :
    (asciiLower c).toNat = c.toNat + 32 := by
  have hz : ('Z' : Char).toNat = 90 := by decide
  have hc : c.toNat ≤ 90 := by
    have := char_le_iff_toNat.mp h2
    omega
  rw [asciiLower, if_pos ⟨h1, h2⟩]
  exact toNat_ofNat_valid _ (by omega)

theorem asciiLower_ne_of_upper {c : Char} (h1 : 'A' ≤ c) (h2 : c ≤ 'Z') :
    asciiLower c ≠ c := by
  intro h
  have := asciiLower_toNat_of_upper h1 h2
  rw [h] at this
  omega

theorem asciiLower_eq_of_not_upper {c : Char} (h : ¬('A' ≤ c ∧ c ≤ 'Z')) :
    asciiLower c = c := by
  rw [asciiLower, if_neg h]

theorem asciiLower_idem (c : Char) : asciiLower (asciiLower c) = asciiLower c := by
  by_cases h : 'A' ≤ c ∧ c ≤ 'Z'
  · have ha : ('A' : Char).toNat = 65 := by decide
    have hz : ('Z' : Char).toNat = 90 := by decide
    have h1 : (asciiLower c).toNat = c.toNat + 32 := asciiLower_toNat_of_upper h.1 h.2
    have h2 : 65 ≤ c.toNat := by
      have := char_le_iff_toNat.mp h.1
      omega
    apply asciiLower_eq_of_not_upper
    intro hcon
    have := char_le_iff_toNat.mp hcon.2
    omega
  · rw [asciiLower_eq_of_not_upper h, asciiLower_eq_of_not_upper h]

theorem asciiLower_ne_dot {c : Char} (h : c ≠ '.') : asciiLower c ≠ '.' := by
  by_cases hc : 'A' ≤ c ∧ c ≤ 'Z'
  · intro he
    have h1 := asciiLower_toNat_of_upper hc.1 hc.2
    rw [he] at h1
    have ha : ('A' : Char).toNat = 65 := by decide
    have hdot : ('.' : Char).toNat = 46 := by decide
    have h2 := char_le_iff_toNat.mp hc.1
    omega
  · rw [asciiLower_eq_of_not_upper hc]
    exact h

theorem lowerStr_idem (s : Str) : lowerStr (lowerStr s) = lowerStr s := by
  induction s with
  | nil => rfl
  | cons c cs ih =>
    simp only [lowerStr, List.map_cons] at ih ⊢
    rw [asciiLower_idem, ih]

theorem lowerStr_no_dot {s : Str} (h : ∀ c ∈ s, c ≠ '.') :
    ∀ c ∈ lowerStr s, c ≠ '.' := by
  intro c hc
  rcases List.mem_map.mp hc with ⟨x, hx, hset⟩
  rw [← hset]
  exact asciiLower_ne_dot (h x hx)

theorem map_eq_self_mem {f : Char → Char} {l : Str} (h : l.map f = l) :
    ∀ c ∈ l, f c = c := by
  induction l with
  | nil => intro c hc; cases hc
  | cons c cs ih =>
    rw [List.map_cons, List.cons.injEq] at h
    intro x hx
    cases hx with
    | head => exact h.1
    | tail _ hmem => exact ih h.2 x hmem

theorem digit_ne {c c2 : Char} (h : c.isDigit = true) (h2 : c2.isDigit = false) :
    c2 ≠ c := by
  intro e
  rw [e, h] at h2
  exact absurd h2 (by simp)

theorem splitLastDot_eq_none {l : Str} (h : ∀ c ∈ l, c ≠ '.') : splitLastDot l = none := by
  induction l with
  | nil => rfl
  | cons c cs ih =>
    have hc : c ≠ '.' := h c (List.mem_cons_self c cs)
    have hcs : splitLastDot cs = none := ih (fun x hx => h x (List.mem_cons_of_mem c hx))
    simp [splitLastDot, hcs, hc]

theorem not_dot_mem_of_splitLastDot_eq_none {l : Str} (h : splitLastDot l = none) :
    ∀ c ∈ l, c ≠ '.' := by
  induction l with
  | nil => intro c hc; cases hc
  | cons c cs ih =>
    intro x hx
    rw [splitLastDot] at h
    cases hcs : splitLastDot cs with
    | some p => rw [hcs] at h; cases h
    | none =>
      rw [hcs] at h
      by_cases hc : c = '.'
      · rw [if_pos hc] at h; cases h
      · rw [if_neg hc] at h
        cases hx with
        | head => exact hc
        | tail _ hmem => exact ih hcs x hmem

theorem splitLastDot_append {xs a : Str} (h : splitLastDot a = none) :
    splitLastDot (xs ++ '.' :: a) = some (xs, a) := by
  induction xs with
  | nil => simp [splitLastDot, h]
  | cons c cs ih => simp [splitLastDot, ih]

theorem splitLastDot_dot_not_mem {l b a : Str} (h : splitLastDot l = some (b, a)) :
    ∀ c ∈ a, c ≠ '.' := by
  induction l generalizing b with
  | nil => cases h
  | cons c cs ih =>
    rw [splitLastDot] at h
    cases hcs : splitLastDot cs with
    | some p =>
      rw [hcs] at h
      cases h
      exact ih hcs
    | none =>
      rw [hcs] at h
      by_cases hc : c = '.'
      · rw [if_pos hc] at h
        cases h
        exact not_dot_mem_of_splitLastDot_eq_none hcs
      · rw [if_neg hc] at h; cases h

theorem splitFileAtDot_sep {c : Char} {cs e : Str} (hc : c ≠ '.') (he : ∀ x ∈ e, x ≠ '.') :
    splitFileAtDot ((c :: cs) ++ '.' :: e) = (c :: cs, some e) := by
  have hne : (c :: cs) ++ '.' :: e ≠ str ".." := by
    intro h
    rw [List.cons_append] at h
    have hdd : str ".." = ['.', '.'] := rfl
    rw [hdd, List.cons.injEq] at h
    exact hc h.1
  rw [splitFileAtDot, if_neg hne,
    splitLastDot_append (splitLastDot_eq_none he)]
  simp

theorem extensionOf_no_dot {f e : Str} (h : extensionOf f = some e) :
    ∀ c ∈ e, c ≠ '.' := by
  rw [extensionOf, splitFileAtDot] at h
  by_cases hdd : f = str ".."
  · rw [if_pos hdd] at h; cases h
  · rw [if_neg hdd] at h
    cases hs : splitLastDot f with
    | some p =>
      rw [hs] at h
      by_cases hb : p.1 = []
      · simp [hb] at h
      · simp [hb] at h
        cases p with
        | mk b a =>
          cases h
          exact splitLastDot_dot_not_mem hs
    | none => rw [hs] at h; cases h

theorem splitOnChar_ne_nil (sep : Char) (l : Str) : splitOnChar sep l ≠ [] := by
  cases l with
  | nil => simp [splitOnChar]
  | cons c cs =>
    rw [splitOnChar]
    cases h : splitOnChar sep cs with
    | nil => simp
    | cons x t =>
      by_cases hc : c = sep <;> simp [hc]

theorem splitOnChar_of_not_mem {sep : Char} {l : Str} (h : sep ∉ l) :
    splitOnChar sep l = [l] := by
  induction l with
  | nil => rfl
  | cons c cs ih =>
    have hc : c ≠ sep := fun e => h (e ▸ List.mem_cons_self c cs)
    have hcs : splitOnChar sep cs = [cs] := ih (fun hm => h (List.mem_cons_of_mem c hm))
    rw [splitOnChar, hcs]
    simp [hc]

theorem splitOnChar_append {sep : Char} {xs rest : Str} (h : sep ∉ xs) :
    splitOnChar sep (xs ++ sep :: rest) = xs :: splitOnChar sep rest := by
  induction xs with
  | nil =>
    rw [List.nil_append, splitOnChar]
    cases hr : splitOnChar sep rest with
    | nil => exact absurd hr (splitOnChar_ne_nil sep rest)
    | cons x t => simp
  | cons c cs ih =>
    have hc : c ≠ sep := fun e => h (e ▸ List.mem_cons_self c cs)
    have hcs := ih (fun hm => h (List.mem_cons_of_mem c hm))
    rw [List.cons_append, splitOnChar, hcs]
    simp [hc]

theorem takeWhile_isDigit_of_all {l : Str} (h : ∀ c ∈ l, c.isDigit = true) :
    l.takeWhile Char.isDigit = l := by
  induction l with
  | nil => rfl
  | cons c cs ih =>
    rw [List.takeWhile_cons, h c (List.mem_cons_self c cs)]
    simp [ih (fun x hx => h x (List.mem_cons_of_mem c hx))]

theorem firstDigitRun_all_digits {l : Str} (h1 : l ≠ []) (h2 : ∀ c ∈ l, c.isDigit = true) :
    firstDigitRun l = some l := by
  cases l with
  | nil => exact absurd rfl h1
  | cons c cs =>
    rw [firstDigitRun, if_pos (h2 c (List.mem_cons_self c cs))]
    rw [takeWhile_isDigit_of_all (fun x hx => h2 x (List.mem_cons_of_mem c hx))]

theorem digit_ne_hyphen {c : Char} (h : c.isDigit = true) : c ≠ '-' := by
  intro e
  rw [e] at h
  simp [Char.isDigit] at h

theorem parse_date_canonical {y1 y2 y3 y4 m1 m2 d1 d2 : Char} (rest : Str)
    (h : y1.isDigit = true ∧ y2.isDigit = true ∧ y3.isDigit = true ∧ y4.isDigit = true ∧
         m1.isDigit = true ∧ m2.isDigit = true ∧ d1.isDigit = true ∧ d2.isDigit = true) :
    parse_date (y1 :: y2 :: y3 :: y4 :: '-' :: m1 :: m2 :: '-' :: d1 :: d2 :: rest) =
      some [y1, y2, y3, y4, '-', m1, m2, '-', d1, d2] := by
  obtain ⟨h1, h2, h3, h4, h5, h6, h7, h8⟩ := h
  rw [parse_date, matchHyphens]
  simp [h1, h2, h3, h4, h5, h6, h7, h8]

theorem matchHyphens_shape {t d : Str} (h : matchHyphens t = some d) :
    ∃ c cs, d = c :: cs ∧ c.isDigit = true := by
  unfold matchHyphens at h
  split at h
  · split at h
    · rename_i hcond
      cases h
      exact ⟨_, _, rfl, hcond.1⟩
    · cases h
  · cases h

theorem matchNoHyphens_shape {t d : Str} (h : matchNoHyphens t = some d) :
    ∃ c cs, d = c :: cs ∧ c.isDigit = true := by
  unfold matchNoHyphens at h
  split at h
  · split at h
    · rename_i hcond
      cases h
      exact ⟨_, _, rfl, hcond.1⟩
    · cases h
  · cases h

theorem matchYearOnly_shape {t d : Str} (h : matchYearOnly t = some d) :
    ∃ c cs, d = c :: cs ∧ c.isDigit = true := by
  unfold matchYearOnly at h
  split at h
  · split at h
    · rename_i hcond
      cases h
      exact ⟨_, _, rfl, hcond.1⟩
    · cases h
  · cases h

theorem parse_date_shape {t d : Str} (h : parse_date t = some d) :
    ∃ c cs, d = c :: cs ∧ c.isDigit = true := by
  rw [parse_date] at h
  cases h1 : matchHyphens t with
  | some x =>
    rw [h1] at h
    cases h
    exact matchHyphens_shape h1
  | none =>
    rw [h1] at h
    cases h2 : matchNoHyphens t with
    | some x =>
      rw [h2] at h
      cases h
      exact matchNoHyphens_shape h2
    | none =>
      rw [h2] at h
      exact matchYearOnly_shape h

theorem underscore_not_mem_canonical {y1 y2 y3 y4 m1 m2 d1 d2 : Char}
    (h1 : y1.isDigit = true) (h2 : y2.isDigit = true) (h3 : y3.isDigit = true)
    (h4 : y4.isDigit = true) (h5 : m1.isDigit = true) (h6 : m2.isDigit = true)
    (h7 : d1.isDigit = true) (h8 : d2.isDigit = true) :
    '_' ∉ [y1, y2, y3, y4, '-', m1, m2, '-', d1, d2] := by
  intro hm
  have hu : ('_' : Char).isDigit = false := by decide
  simp only [List.mem_cons, List.not_mem_nil, or_false] at hm
  rcases hm with e | e | e | e | e | e | e | e | e | e
  · exact digit_ne h1 hu e
  · exact digit_ne h2 hu e
  · exact digit_ne h3 hu e
  · exact digit_ne h4 hu e
  · exact absurd e (by decide)
  · exact digit_ne h5 hu e
  · exact digit_ne h6 hu e
  · exact absurd e (by decide)
  · exact digit_ne h7 hu e
  · exact digit_ne h8 hu e

theorem underscore_not_mem_digits {pg : Str} (h : ∀ c ∈ pg, c.isDigit = true) :
    '_' ∉ pg := by
  intro hm
  exact absurd (h _ hm) (by decide)

theorem formatName_decomp (d i n pg e : Str) :
    formatName d i n pg e = (d ++ '_' :: (i ++ '_' :: (n ++ '_' :: pg))) ++ '.' :: e := by
  simp [formatName]

/-- C1 (amended): for every fully-parseable identity whose date is in the
canonical hyphenated form `YYYY-MM-DD`, whose institution and name contain
no underscore and no slash, whose page is a non-empty digit string, and for
every extension containing no dot and no slash, parsing the stem of the
canonical filename rendered from the identity and the extension yields the
identity again, and `is_normalized` returns true on that rendered filename
joined to any parent directory. -/
theorem roundtrip_canonical
    (y1 y2 y3 y4 m1 m2 d1 d2 : Char) (i n pg ext : Str) (dir : List Str)
    (hdate : y1.isDigit = true ∧ y2.isDigit = true ∧ y3.isDigit = true ∧ y4.isDigit = true ∧
             m1.isDigit = true ∧ m2.isDigit = true ∧ d1.isDigit = true ∧ d2.isDigit = true)
    (hi : '_' ∉ i ∧ '/' ∉ i) (hn : '_' ∉ n ∧ '/' ∉ n)
    (hpg1 : pg ≠ []) (hpg2 : ∀ c ∈ pg, c.isDigit = true)
    (hext : '.' ∉ ext ∧ '/' ∉ ext) :
    render ⟨some [y1, y2, y3, y4, '-', m1, m2, '-', d1, d2], some i, some n, some pg⟩ ext =
      some (formatName [y1, y2, y3, y4, '-', m1, m2, '-', d1, d2] i n pg (lowerStr ext)) ∧
    OptDoc.new
        ⟨dir, formatName [y1, y2, y3, y4, '-', m1, m2, '-', d1, d2] i n pg (lowerStr ext)⟩ =
      ⟨some [y1, y2, y3, y4, '-', m1, m2, '-', d1, d2], some i, some n, some pg⟩ ∧
    is_normalized
        ⟨dir, formatName [y1, y2, y3, y4, '-', m1, m2, '-', d1, d2] i n pg (lowerStr ext)⟩ =
      true := by
  obtain ⟨hd1, hd2, hd3, hd4, hd5, hd6, hd7, hd8⟩ := hdate
  have hEdot : ∀ x ∈ lowerStr ext, x ≠ '.' :=
    lowerStr_no_dot (fun c hc e => hext.1 (e ▸ hc))
  have hsplit :
      splitFileAtDot (formatName [y1, y2, y3, y4, '-', m1, m2, '-', d1, d2] i n pg
        (lowerStr ext)) =
        ([y1, y2, y3, y4, '-', m1, m2, '-', d1, d2] ++ '_' :: (i ++ '_' :: (n ++ '_' :: pg)),
          some (lowerStr ext)) := by
    rw [formatName_decomp]
    exact splitFileAtDot_sep (Ne.symm (digit_ne hd1 (by decide))) hEdot
  have hv :
      splitOnChar '_'
          ([y1, y2, y3, y4, '-', m1, m2, '-', d1, d2] ++ '_' :: (i ++ '_' :: (n ++ '_' :: pg))) =
        [[y1, y2, y3, y4, '-', m1, m2, '-', d1, d2], i, n, pg] := by
    rw [splitOnChar_append (underscore_not_mem_canonical hd1 hd2 hd3 hd4 hd5 hd6 hd7 hd8),
      splitOnChar_append hi.1, splitOnChar_append hn.1,
      splitOnChar_of_not_mem (underscore_not_mem_digits hpg2)]
  have hnew :
      OptDoc.new
          ⟨dir, formatName [y1, y2, y3, y4, '-', m1, m2, '-', d1, d2] i n pg (lowerStr ext)⟩ =
        ⟨some [y1, y2, y3, y4, '-', m1, m2, '-', d1, d2], some i, some n, some pg⟩ := by
    simp only [OptDoc.new, file_stem, hsplit, hv]
    simp [parse_date_canonical [] ⟨hd1, hd2, hd3, hd4, hd5, hd6, hd7, hd8⟩, parse_page,
      firstDigitRun_all_digits hpg1 hpg2]
  refine ⟨by simp [render], hnew, ?_⟩
  simp only [is_normalized, hsplit, hnew]
  simp [OptDoc.is_parseable, lowerStr_idem]

theorem firstDigitRun_none {t : Str} (h : ∀ c ∈ t, c.isDigit = false) :
    firstDigitRun t = none := by
  induction t with
  | nil => rfl
  | cons a as ih =>
    rw [firstDigitRun]
    simp [h a (List.mem_cons_self a as)]
    exact ih (fun x hx => h x (List.mem_cons_of_mem a hx))

theorem firstDigitRun_append {pre : Str} (c : Char) (rest : Str)
    (hpre : ∀ x ∈ pre, x.isDigit = false) (hc : c.isDigit = true) :
    firstDigitRun (pre ++ c :: rest) = some (c :: rest.takeWhile Char.isDigit) := by
  induction pre with
  | nil =>
    rw [List.nil_append, firstDigitRun]
    simp [hc]
  | cons a as ih =>
    rw [List.cons_append, firstDigitRun]
    simp [hpre a (List.mem_cons_self a as)]
    exact ih (fun x hx => hpre x (List.mem_cons_of_mem a hx))

theorem parse_date_compact {c1 c2 c3 c4 c5 c6 c7 c8 : Char} (rest : Str)
    (h1 : c1.isDigit = true) (h2 : c2.isDigit = true) (h3 : c3.isDigit = true)
    (h4 : c4.isDigit = true) (h5 : c5.isDigit = true) (h6 : c6.isDigit = true)
    (h7 : c7.isDigit = true) (h8 : c8.isDigit = true) :
    parse_date (c1 :: c2 :: c3 :: c4 :: c5 :: c6 :: c7 :: c8 :: rest) =
      some [c1, c2, c3, c4, '-', c5, c6, '-', c7, c8] := by
  have hne : c5 ≠ '-' := digit_ne_hyphen h5
  have hh : matchHyphens (c1 :: c2 :: c3 :: c4 :: c5 :: c6 :: c7 :: c8 :: rest) = none := by
    cases rest with
    | nil => rfl
    | cons a t =>
      cases t with
      | nil => rfl
      | cons b t2 =>
        rw [matchHyphens]
        simp [hne]
  rw [parse_date, hh, matchNoHyphens]
  simp [h1, h2, h3, h4, h5, h6, h7, h8]

theorem extAllowed_eq_false {e : DirEntry} (h : extensionOf e.name = none) :
    extAllowed e = false := by
  rw [extensionOf] at h
  simp [extAllowed, h]
  decide

/-! ### Claim theorems -/

/-- C1 (counterexample): the round-trip law fails for the claim's literal
quantification.  The identity with date "x", institution "a", name "b",
page "1" is fully parseable in the spec's sense (all four fields present),
yet parsing the stem of its rendered filename "x_a_b_1.pdf" does not return
the identity (the date token "x" does not parse), and the rendered filename
is not normalized. -/
theorem roundtrip_literal_fails :
    OptDoc.is_parseable ⟨some (str "x"), some (str "a"), some (str "b"), some (str "1")⟩ =
      true ∧
    render ⟨some (str "x"), some (str "a"), some (str "b"), some (str "1")⟩ (str "pdf") =
      some (str "x_a_b_1.pdf") ∧
    OptDoc.new ⟨[], str "x_a_b_1.pdf"⟩ ≠
      ⟨some (str "x"), some (str "a"), some (str "b"), some (str "1")⟩ ∧
    is_normalized ⟨[], str "x_a_b_1.pdf"⟩ = false := by
  refine ⟨by decide, by decide, by decide, by decide⟩

/-- C1 (witness): the amended round-trip law at the concrete identity
2020-04-03 / acme / bill / page 1 with extension pdf under parent "docs". -/
theorem roundtrip_canonical_witness :
    render ⟨some ['2', '0', '2', '0', '-', '0', '4', '-', '0', '3'], some (str "acme"),
        some (str "bill"), some (str "1")⟩ (str "pdf") =
      some (formatName ['2', '0', '2', '0', '-', '0', '4', '-', '0', '3'] (str "acme")
        (str "bill") (str "1") (lowerStr (str "pdf"))) ∧
    OptDoc.new
        ⟨[str "docs"], formatName ['2', '0', '2', '0', '-', '0', '4', '-', '0', '3'] (str "acme")
          (str "bill") (str "1") (lowerStr (str "pdf"))⟩ =
      ⟨some ['2', '0', '2', '0', '-', '0', '4', '-', '0', '3'], some (str "acme"),
        some (str "bill"), some (str "1")⟩ ∧
    is_normalized
        ⟨[str "docs"], formatName ['2', '0', '2', '0', '-', '0', '4', '-', '0', '3'] (str "acme")
          (str "bill") (str "1") (lowerStr (str "pdf"))⟩ =
      true :=
  roundtrip_canonical '2' '0' '2' '0' '0' '4' '0' '3' (str "acme") (str "bill") (str "1")
    (str "pdf") [str "docs"]
    (by decide) (by decide) (by decide) (by decide) (by decide) (by decide)

/-- C2: parse_date tries the hyphenated pattern first, then the compact
pattern, then the year-only pattern, and uses only the first match; any
token starting with eight digits decodes as a compact date, and in
particular the stem "20200403_x_y_1" date-decodes to "2020-04-03", never to
the year-only truncation "2020". -/
theorem date_priority :
    (∀ (t d : Str), matchHyphens t = some d → parse_date t = some d) ∧
    (∀ t : Str, matchHyphens t = none → matchNoHyphens t = none →
      parse_date t = matchYearOnly t) ∧
    (∀ (c1 c2 c3 c4 c5 c6 c7 c8 : Char) (rest : Str),
      c1.isDigit = true → c2.isDigit = true → c3.isDigit = true → c4.isDigit = true →
      c5.isDigit = true → c6.isDigit = true → c7.isDigit = true → c8.isDigit = true →
      parse_date (c1 :: c2 :: c3 :: c4 :: c5 :: c6 :: c7 :: c8 :: rest) =
        some [c1, c2, c3, c4, '-', c5, c6, '-', c7, c8]) ∧
    (OptDoc.new ⟨[], str "20200403_x_y_1"⟩).date = some (str "2020-04-03") ∧
    (OptDoc.new ⟨[], str "20200403_x_y_1"⟩).date ≠ some (str "2020") := by
  refine ⟨?_, ?_, ?_, by decide, by decide⟩
  · intro t d h
    rw [parse_date, h]
  · intro t h1 h2
    rw [parse_date, h1, h2]
  · intro c1 c2 c3 c4 c5 c6 c7 c8 rest h1 h2 h3 h4 h5 h6 h7 h8
    exact parse_date_compact rest h1 h2 h3 h4 h5 h6 h7 h8

/-- C2 (witness): the compact token "20200403" decodes to "2020-04-03". -/
theorem date_priority_witness :
    parse_date ['2', '0', '2', '0', '0', '4', '0', '3'] =
      some ['2', '0', '2', '0', '-', '0', '4', '-', '0', '3'] :=
  date_priority.2.2.1 '2' '0' '2' '0' '0' '4' '0' '3' []
    (by decide) (by decide) (by decide) (by decide)
    (by decide) (by decide) (by decide) (by decide)

/-- C3: ingest followed by extract with the correct key returns the original
source bytes; extract with a wrong key, or on a corrupted container, returns
AuthError, which is a different error kind from the I/O failure
SourceReadError. -/
theorem archive_roundtrip :
    (∀ (bytes : List Nat) (key : Str) (blob : ArchiveBlob),
      ingest (some bytes) key = Except.ok blob →
      extract (some blob) key = Except.ok bytes) ∧
    (∀ (bytes : List Nat) (key key2 : Str), key ≠ key2 →
      extract (some (sealBlob key bytes)) key2 = Except.error ArchiveError.AuthError) ∧
    (∀ key : Str,
      extract (some ArchiveBlob.corrupted) key = Except.error ArchiveError.AuthError) ∧
    ArchiveError.AuthError ≠ ArchiveError.SourceReadError := by
  refine ⟨?_, ?_, fun key => rfl, by decide⟩
  · intro bytes key blob h
    rw [ingest] at h
    cases h
    simp [extract, openBlob, sealBlob]
  · intro bytes key key2 hne
    simp [extract, openBlob, sealBlob, hne]

/-- C3 (witness): the archive contract at concrete bytes and keys. -/
theorem archive_roundtrip_witness :
    extract (some (sealBlob (str "k") [1, 2, 3])) (str "k") = Except.ok [1, 2, 3] ∧
    extract (some (sealBlob (str "k") [1, 2, 3])) (str "wrong") =
      Except.error ArchiveError.AuthError :=
  ⟨archive_roundtrip.1 [1, 2, 3] (str "k") (sealBlob (str "k") [1, 2, 3]) rfl,
    archive_roundtrip.2.1 [1, 2, 3] (str "k") (str "wrong") (by decide)⟩

/-- C5: a path that does not exist scans to the empty sequence without
signalling an error. -/
theorem scan_missing_dir_empty : list_files none = [] := rfl

/-- C6: scanning a directory containing exactly the regular files a.pdf,
b.txt and c.PNG returns exactly a.pdf and c.PNG (extension match is
case-insensitive) and excludes b.txt. -/
theorem scan_allowlist_example :
    list_files (some [⟨str "a.pdf", true⟩, ⟨str "b.txt", true⟩, ⟨str "c.PNG", true⟩]) =
      [str "a.pdf", str "c.PNG"] := by decide

/-- C7: whenever the parsed stem is not fully parseable, is_normalized
returns false immediately; in particular is_normalized("report.pdf") is
false. -/
theorem unparseable_not_normalized :
    (∀ p : FPath, (OptDoc.new p).is_parseable = false → is_normalized p = false) ∧
    is_normalized ⟨[], str "report.pdf"⟩ = false := by
  refine ⟨?_, by decide⟩
  intro p h
  simp [is_normalized, h]

/-- C7 (witness): the unparseable path "report.pdf" is not normalized. -/
theorem unparseable_not_normalized_witness :
    (OptDoc.new ⟨[], str "report.pdf"⟩).is_parseable = false ∧
    is_normalized ⟨[], str "report.pdf"⟩ = false :=
  ⟨by decide, unparseable_not_normalized.1 ⟨[], str "report.pdf"⟩ (by decide)⟩

/-- C8: parse_date normalizes all three source encodings to the hyphenated
output form, with year-only defaulting month and day to 01. -/
theorem parse_date_three_encodings :
    parse_date (str "2020-04-03_boop_loop") = some (str "2020-04-03") ∧
    parse_date (str "20180530_boop_loop") = some (str "2018-05-30") ∧
    parse_date (str "2018_boop_loop") = some (str "2018-01-01") := by
  refine ⟨by decide, by decide, by decide⟩

/-- C9: parse_page extracts the first maximal run of digits anywhere in its
token, preserving leading zeros, and returns None when the token contains no
digit; in particular parse_page("pg20") = "20", parse_page("pg") = None and
parse_page("01") = "01". -/
theorem parse_page_digit_run :
    (∀ (pre : Str) (c : Char) (rest : Str), (∀ x ∈ pre, x.isDigit = false) →
      c.isDigit = true →
      parse_page (pre ++ c :: rest) = some (c :: rest.takeWhile Char.isDigit)) ∧
    (∀ t : Str, (∀ c ∈ t, c.isDigit = false) → parse_page t = none) ∧
    parse_page (str "pg20") = some (str "20") ∧
    parse_page (str "pg") = none ∧
    parse_page (str "01") = some (str "01") := by
  refine ⟨?_, ?_, by decide, by decide, by decide⟩
  · intro pre c rest hpre hc
    exact firstDigitRun_append c rest hpre hc
  · intro t h
    exact firstDigitRun_none h

/-- C9 (witness): the first digit run of "pg20" is "20". -/
theorem parse_page_digit_run_witness :
    parse_page (['p', 'g'] ++ '2' :: ['0']) = some ('2' :: ['0'].takeWhile Char.isDigit) :=
  parse_page_digit_run.1 ['p', 'g'] '2' ['0'] (by decide) (by decide)

/-- C4: a directory child without an extension is excluded from the scan
result exactly like a child whose extension is outside the allow-list, and
the scan neither fails nor panics on it: its name never appears in the
output, and removing it from the directory leaves the output unchanged. -/
theorem scan_no_ext_excluded :
    (∀ (entries : List DirEntry) (x : Str), extensionOf x = none →
      x ∉ list_files (some entries)) ∧
    (∀ (e : DirEntry) (entries : List DirEntry), extensionOf e.name = none →
      list_files (some (e :: entries)) = list_files (some entries)) := by
  constructor
  · intro entries x hx hmem
    simp only [list_files] at hmem
    rcases List.mem_map.mp hmem with ⟨e, hemem, hname⟩
    have hq : extAllowed e = true := (List.mem_filter.mp hemem).2
    have hq2 : extAllowed e = false := extAllowed_eq_false (by rw [hname]; exact hx)
    rw [hq2] at hq
    cases hq
  · intro e entries hx
    have hq := extAllowed_eq_false hx
    simp only [list_files, List.filter_cons]
    by_cases hf : e.isFile
    · simp [hf, List.filter_cons, hq]
    · simp [hf]

/-- C4 (witness): an extensionless child "noext" is excluded without error. -/
theorem scan_no_ext_excluded_witness :
    str "noext" ∉ list_files (some [⟨str "noext", true⟩, ⟨str "a.pdf", true⟩]) ∧
    list_files (some (⟨str "noext", true⟩ :: [⟨str "a.pdf", true⟩])) =
      list_files (some [⟨str "a.pdf", true⟩]) :=
  ⟨scan_no_ext_excluded.1 [⟨str "noext", true⟩, ⟨str "a.pdf", true⟩] (str "noext") (by decide),
    scan_no_ext_excluded.2 ⟨str "noext", true⟩ [⟨str "a.pdf", true⟩] (by decide)⟩

/-- C10 (implicit): for every path with a fully-parseable stem whose
extension contains an uppercase ASCII letter, is_normalized returns false,
because the rebuilt canonical name carries the lower-cased extension and is
compared byte-for-byte with the path; yet the scanner's case-insensitive
allow-list admits such a file. -/
theorem upper_ext_not_normalized :
    (∀ (p : FPath) (e : Str) (c : Char),
      (OptDoc.new p).is_parseable = true →
      extensionOf p.file = some e → c ∈ e → 'A' ≤ c → c ≤ 'Z' →
      is_normalized p = false) ∧
    is_normalized ⟨[], str "2020-04-03_a_b_1.PDF"⟩ = false ∧
    str "2020-04-03_a_b_1.PDF" ∈
      list_files (some [⟨str "2020-04-03_a_b_1.PDF", true⟩]) := by
  refine ⟨?_, by decide, by decide⟩
  intro p e c hp he hc hA hZ
  have hds : ((OptDoc.new p).date).isSome = true := by
    simp only [OptDoc.is_parseable, Bool.and_eq_true] at hp
    exact hp.1.1.1
  obtain ⟨d0, hd0⟩ := Option.isSome_iff_exists.mp hds
  have hd0' : ∃ t, (splitOnChar '_' (file_stem p.file))[0]? = some t ∧ parse_date t = some d0 := by
    have := hd0
    simp only [OptDoc.new] at this
    exact Option.bind_eq_some.mp this
  obtain ⟨t, ht, hpd⟩ := hd0'
  obtain ⟨c0, cs0, hshape, hc0⟩ := parse_date_shape hpd
  subst hshape
  have henodot : ∀ x ∈ e, x ≠ '.' := extensionOf_no_dot he
  have hEnodot : ∀ x ∈ lowerStr e, x ≠ '.' := lowerStr_no_dot henodot
  rw [extensionOf] at he
  simp only [is_normalized, he, Option.getD_some, hd0]
  rw [if_neg (by simp [hp])]
  rw [beq_eq_false_iff_ne]
  intro heq
  have hfile := congrArg FPath.file heq
  simp only at hfile
  have hsplit2 :
      splitFileAtDot (formatName (c0 :: cs0) ((OptDoc.new p).institution.getD [])
          ((OptDoc.new p).name.getD []) ((OptDoc.new p).page.getD (str "1"))
          (lowerStr e)) =
        (c0 :: (cs0 ++ '_' :: (((OptDoc.new p).institution.getD []) ++
          '_' :: (((OptDoc.new p).name.getD []) ++
            '_' :: ((OptDoc.new p).page.getD (str "1"))))),
          some (lowerStr e)) := by
    rw [formatName_decomp, List.cons_append]
    exact splitFileAtDot_sep (Ne.symm (digit_ne hc0 (by decide))) hEnodot
  rw [hfile, hsplit2] at he
  simp only [Option.some.injEq] at he
  exact absurd (map_eq_self_mem he c hc) (asciiLower_ne_of_upper hA hZ)

/-- C10 (witness): the fully-parseable path "2020-04-03_a_b_1.PDF" with
uppercase extension is not normalized. -/
theorem upper_ext_not_normalized_witness :
    is_normalized ⟨[], str "2020-04-03_a_b_1.PDF"⟩ = false :=
  upper_ext_not_normalized.1 ⟨[], str "2020-04-03_a_b_1.PDF"⟩ (str "PDF") 'P'
    (by decide) (by decide) (by decide) (by decide) (by decide)
